import Mathlib

/-!
Verification of the phonikud diacritization engine (`src/model.rs`).

The development shallowly embeds the pure parts of `run_inference`:
the argmax decoding of logits rows (`Iterator::enumerate().max_by(...)`
with `partial_cmp(..).unwrap()`), the mark tables, and the string
reconstruction loop that re-threads per-token predictions onto the
cleaned character stream.  Strings are modelled as `List Char`,
f32 logits as rationals extended with a NaN point, and Rust panics
(`unwrap` on `None`, slice indexing out of bounds) as `Except.error ()`.
-/

/-- A floating-point logit value: either NaN or a finite value
(finite f32 values are modelled by rationals; only their ordering
matters to the decoder). -/
inductive F where
  | nan : F
  | val : ℚ → F
deriving DecidableEq

/-- `f32::partial_cmp`: `None` whenever one side is NaN, otherwise the
ordering of the finite values. -/
def partialCmp : F → F → Option Ordering
  | F.val a, F.val b =>
      some (if a < b then Ordering.lt else if a = b then Ordering.eq else Ordering.gt)
  | _, _ => none

/-- The fold inside `Iterator::max_by` as `run_inference` uses it:
`bi, bv` are the current best (index, value), `i` the index of the next
element.  Rust's `max_by` keeps the accumulator only when it compares
`Greater`, so on `Less` *or `Equal`* the new element replaces it; the
`.unwrap()` on `partial_cmp` panics (here: `Except.error ()`) whenever a
comparison involves NaN. -/
def maxByGo : Nat → F → Nat → List F → Except Unit Nat
  | bi, _, _, [] => Except.ok bi
  | bi, bv, i, y :: ys =>
      match partialCmp bv y with
      | none => Except.error ()
      | some Ordering.gt => maxByGo bi bv (i + 1) ys
      | some _ => maxByGo i y (i + 1) ys

/-- `token.iter().enumerate().max_by(|a, b| a.1.partial_cmp(b.1).unwrap()).unwrap().0`
from `run_inference` (used identically for the nikud and the shin rows).
An empty row makes the outer `.unwrap()` panic. -/
def argmaxRust : List F → Except Unit Nat
  | [] => Except.error ()
  | x :: xs => maxByGo 0 x 1 xs

/-- Finite value of a logit (NaN mapped to an arbitrary default;
only used under NaN-freeness hypotheses). -/
def toQ : F → ℚ
  | F.nan => 0
  | F.val q => q

/-- Modelled from the spec's words for claim C1: "argmax over classes
... ties broken by lowest class index, consistent with a left-to-right
linear scan using strict greater-than comparison".  The scan replaces
the current best only on strictly greater, hence keeps the first
maximum. -/
def firstArgmaxGo : Nat → ℚ → Nat → List ℚ → Nat
  | bi, _, _, [] => bi
  | bi, bv, i, y :: ys =>
      if bv < y then firstArgmaxGo i y (i + 1) ys else firstArgmaxGo bi bv (i + 1) ys

/-- Modelled from the spec's words (claim C1): argmax with ties broken
by the lowest class index. -/
def firstArgmax : List ℚ → Option Nat
  | [] => none
  | x :: xs => some (firstArgmaxGo 0 x 1 xs)

-- Sanity checks while developing:
example : argmaxRust [F.val 1, F.val 1] = Except.ok 1 := rfl
example : firstArgmax [(1 : ℚ), 1] = some 0 := by decide
example : argmaxRust [F.nan, F.val 1] = Except.error () := rfl
example : argmaxRust [F.nan] = Except.ok 0 := rfl
example : argmaxRust [F.val 3, F.val 7, F.val 7, F.val 2] = Except.ok 2 := rfl

/-! ## Constants of `model.rs` (`NIKUD_CLASSES`, `SHIN_CLASSES`, marks) -/

/-- `MAT_LECT_TOKEN`: the matres-lectionis placeholder entry. -/
def MAT_LECT_TOKEN : List Char := ['<', 'M', 'A', 'T', '_', 'L', 'E', 'C', 'T', '>']

/-- `NIKUD_CLASSES` from `model.rs`: 29 mark strings (entry 1 is the
matres-lectionis placeholder). -/
def NIKUD_CLASSES : List (List Char) :=
  [ [],
    MAT_LECT_TOKEN,
    ['ּ'],
    ['ְ'],
    ['ֱ'],
    ['ֲ'],
    ['ֳ'],
    ['ִ'],
    ['ֵ'],
    ['ֶ'],
    ['ַ'],
    ['ָ'],
    ['ֹ'],
    ['ֺ'],
    ['ֻ'],
    ['ּ', 'ְ'], ['ּ', 'ֱ'], ['ּ', 'ֲ'], ['ּ', 'ֳ'],
    ['ּ', 'ִ'], ['ּ', 'ֵ'], ['ּ', 'ֶ'], ['ּ', 'ַ'],
    ['ּ', 'ָ'], ['ּ', 'ֹ'], ['ּ', 'ֺ'], ['ּ', 'ֻ'],
    ['ׇ'],
    ['ּ', 'ׇ'] ]

/-- `SHIN_CLASSES`: shin dot, sin dot. -/
def SHIN_CLASSES : List (List Char) := [['ׁ'], ['ׂ']]

/-- `MATRES_LETTERS`. -/
def MATRES_LETTERS : List Char := ['א', 'ו', 'י']

/-- `STRESS_CHAR` ("ole"). -/
def STRESS_CHAR : List Char := ['֫']

/-- `VOCAL_SHVA_CHAR` ("meteg"). -/
def VOCAL_SHVA_CHAR : List Char := ['ֽ']

/-- `PREFIX_CHAR` (the '|' marker; named `PREF_CHAR` here). -/
def PREF_CHAR : List Char := ['|']

/-- `is_hebrew_letter`: codepoint between `ALEF_ORD` (U+05D0) and
`TAF_ORD` (U+05EA) inclusive. -/
def is_hebrew_letter (c : Char) : Bool :=
  decide (0x5D0 ≤ c.toNat) && decide (c.toNat ≤ 0x5EA)

/-- `is_matres_letter`. -/
def is_matres_letter (c : Char) : Bool :=
  MATRES_LETTERS.contains c

/-- Membership in the character class of the regex
`[\u{0590}-\u{05C7}|]` used by `remove_nikud`. -/
def isStripped (c : Char) : Bool :=
  (decide (0x590 ≤ c.toNat) && decide (c.toNat ≤ 0x5C7)) || decide (c = '|')

/-- `remove_nikud`: `replace_all` of the class `[\u{0590}-\u{05C7}|]`
by the empty string, i.e. the filter keeping every character outside
that class. -/
def remove_nikud (text : List Char) : List Char :=
  text.filter (fun c => !isStripped c)

example : remove_nikud ['ש', 'ׁ', 'ל', '|', 'a'] = ['ש', 'ל', 'a'] := by decide
example : is_hebrew_letter 'ש' = true ∧ is_hebrew_letter 'a' = false := by decide

/-! ## Reconstruction (`run_inference`, step 7) -/

/-- The five per-token prediction vectors produced in step 6 of
`run_inference` (`nikud_preds`, `shin_preds`, `stress_preds`,
`vocal_shva_preds`, `prefix_preds`). -/
structure Preds where
  nikud : List Nat
  shin : List Nat
  stress : List Bool
  vshva : List Bool
  pref : List Bool
deriving DecidableEq

/-- Rust slice indexing `tbl[i]`: panics (`Except.error ()`) when the
index is out of bounds. -/
def lookupTable (tbl : List (List Char)) (i : Nat) : Except Unit (List Char) :=
  match tbl.get? i with
  | some s => Except.ok s
  | none => Except.error ()

/-- Rust string slicing `&text[a..b]` (over characters): panics when
`a > b` or `b` is past the end. -/
def sliceRust (l : List Char) (a b : Nat) : Except Unit (List Char) :=
  if a ≤ b ∧ b ≤ l.length then Except.ok ((l.drop a).take (b - a)) else Except.error ()

/-- Total slice `text[a..b]` used to state results. -/
def sliceL (l : List Char) (a b : Nat) : List Char :=
  (l.drop a).take (b - a)

/-- The shin/sin block of the reconstruction loop:
`if char == 'ש' && idx < shin_preds.len() { SHIN_CLASSES[shin_preds[idx]] }`. -/
def shinEmission (p : Preds) (c : Char) (idx : Nat) : Except Unit (List Char) :=
  if c = 'ש' then
    match p.shin.get? idx with
    | some sp => lookupTable SHIN_CLASSES sp
    | none => Except.ok []
  else Except.ok []

/-- The nikud block of the reconstruction loop for one looked-up class
index `n`: `NIKUD_CLASSES[n]`, matres-lectionis placeholder handling
included. -/
def nikudEmission (mark : Option (List Char)) (c : Char) (n : Nat) :
    Except Unit (List Char) :=
  match lookupTable NIKUD_CLASSES n with
  | Except.error u => Except.error u
  | Except.ok nk =>
      if nk = MAT_LECT_TOKEN then
        if is_matres_letter c then Except.ok (mark.getD []) else Except.ok []
      else Except.ok nk

/-- Everything `run_inference` pushes for a single-character token text
`c` at token position `idx`: for a non-Hebrew character just `c`;
for a Hebrew letter, `c` followed by the shin/sin dot, the nikud marks,
the stress mark, the vocal-shva mark and the prefix marker, each guarded
exactly as in the source (`idx < ...len()` bound checks included). -/
def emitLetter (mark : Option (List Char)) (p : Preds) (c : Char) (idx : Nat) :
    Except Unit (List Char) :=
  if is_hebrew_letter c then
    match shinEmission p c idx with
    | Except.error u => Except.error u
    | Except.ok sh =>
        match (match p.nikud.get? idx with
               | some n => nikudEmission mark c n
               | none => Except.ok []) with
        | Except.error u => Except.error u
        | Except.ok nk =>
            let st := if p.stress.getD idx false then STRESS_CHAR else []
            let vs := if p.vshva.getD idx false then VOCAL_SHVA_CHAR else []
            let pf := if p.pref.getD idx false then PREF_CHAR else []
            Except.ok (c :: (sh ++ nk ++ st ++ vs ++ pf))
  else Except.ok [c]

/-- The reconstruction loop of `run_inference` (step 7): walk the token
offset list with token position `idx` and cursor `prev`; after the loop,
push the trailing `clean_text[prev..]`. -/
def reconGo (clean : List Char) (mark : Option (List Char)) (p : Preds) :
    List (Nat × Nat) → Nat → Nat → Except Unit (List Char)
  | [], _, prev => Except.ok (clean.drop prev)
  | (s, e) :: rest, idx, prev =>
      match (if prev < s then sliceRust clean prev s else Except.ok []) with
      | Except.error u => Except.error u
      | Except.ok pre =>
          if e ≤ s then
            match reconGo clean mark p rest (idx + 1) prev with
            | Except.error u => Except.error u
            | Except.ok tl => Except.ok (pre ++ tl)
          else
            match sliceRust clean s e with
            | Except.error u => Except.error u
            | Except.ok tok =>
                if tok.length ≠ 1 then
                  match reconGo clean mark p rest (idx + 1) e with
                  | Except.error u => Except.error u
                  | Except.ok tl => Except.ok (pre ++ tok ++ tl)
                else
                  match emitLetter mark p (tok.headD 'a') idx with
                  | Except.error u => Except.error u
                  | Except.ok em =>
                      match reconGo clean mark p rest (idx + 1) e with
                      | Except.error u => Except.error u
                      | Except.ok tl => Except.ok (pre ++ em ++ tl)

/-- Reconstruction of the output string from the cleaned text, the
token offsets and the decoded predictions. -/
def recon (clean : List Char) (spans : List (Nat × Nat))
    (mark : Option (List Char)) (p : Preds) : Except Unit (List Char) :=
  reconGo clean mark p spans 0 0

/-- The matres-lectionis policy mark (`mark_matres_lectionis`) consists
of characters that `remove_nikud` strips (true for the Hebrew
diacritics the caller is expected to pass, e.g. holam for nikud male). -/
def markOK : Option (List Char) → Bool
  | none => true
  | some m => m.all isStripped

/-- Well-formedness of a token offset list against the cleaned text:
ascending and non-overlapping, each nonempty span in bounds, and every
empty span starting at or before the current cursor (as the offsets of a
real tokenizer do: special tokens carry the span `(0, 0)`). -/
def spansWF (len : Nat) : Nat → List (Nat × Nat) → Bool
  | _, [] => true
  | prev, (s, e) :: rest =>
      if e ≤ s then decide (s ≤ prev) && spansWF len prev rest
      else decide (prev ≤ s) && decide (e ≤ len) && spansWF len e rest

instance {ε α : Type} [DecidableEq ε] [DecidableEq α] : DecidableEq (Except ε α) :=
  fun x y =>
    match x, y with
    | Except.ok a, Except.ok b =>
        if h : a = b then Decidable.isTrue (by rw [h])
        else Decidable.isFalse (by simp [h])
    | Except.error a, Except.error b =>
        if h : a = b then Decidable.isTrue (by rw [h])
        else Decidable.isFalse (by simp [h])
    | Except.ok _, Except.error _ => Decidable.isFalse (by simp)
    | Except.error _, Except.ok _ => Decidable.isFalse (by simp)

-- Sanity: a single Hebrew letter with a patah prediction.
example :
    recon ['ב'] [(0, 1)] none ⟨[10], [], [false], [false], [false]⟩ =
      Except.ok ['ב', 'ַ'] := by decide
-- Sanity: the stranded empty span duplicates the gap.
example :
    recon ['a', 'b', 'c'] [(0, 1), (2, 2)] none ⟨[], [], [], [], []⟩ =
      Except.ok ['a', 'b', 'b', 'c'] := by decide
-- Sanity: out-of-range nikud class panics.
example :
    recon ['א'] [(0, 1)] none ⟨[29], [], [], [], []⟩ = Except.error () := by decide

/-! ## Characterization of the argmax fold -/

/-- On a NaN-free tail, the `max_by` fold succeeds and returns the
index of the last maximal element seen, relative to a current best
`(bi, bv)` with `bi < i`. -/
theorem maxByGo_spec (ys : List F) : ∀ bi i : Nat, ∀ bv : ℚ, bi < i →
    (∀ y ∈ ys, y ≠ F.nan) →
    ∃ j v, maxByGo bi (F.val bv) i ys = Except.ok j ∧
      ((j = bi ∧ v = bv) ∨ ∃ k, k < ys.length ∧ j = i + k ∧ ys.getD k F.nan = F.val v) ∧
      bv ≤ v ∧
      (∀ k, k < ys.length → toQ (ys.getD k F.nan) ≤ v) ∧
      (∀ k, k < ys.length → j < i + k → toQ (ys.getD k F.nan) < v) := by
  induction ys with
  | nil =>
      intro bi i bv hbi _
      exact ⟨bi, bv, rfl, Or.inl ⟨rfl, rfl⟩, le_refl bv,
        fun k hk => absurd hk (Nat.not_lt_zero k),
        fun k hk => absurd hk (Nat.not_lt_zero k)⟩
  | cons y ys ih =>
      intro bi i bv hbi hnan
      cases y with
      | nan => exact absurd rfl (hnan F.nan (List.mem_cons_self _ _))
      | val q =>
        have hnan' : ∀ y ∈ ys, y ≠ F.nan := fun y hy => hnan y (List.mem_cons_of_mem _ hy)
        rcases lt_trichotomy bv q with h | h | h
        · -- bv < q : accumulator replaced
          obtain ⟨j, v, hrun, hloc, hle, hall, hafter⟩ :=
            ih i (i + 1) q (Nat.lt_succ_self i) hnan'
          refine ⟨j, v, ?_, ?_, le_trans (le_of_lt h) hle, ?_, ?_⟩
          · simpa [maxByGo, partialCmp, if_pos h] using hrun
          · rcases hloc with ⟨hj, hv⟩ | ⟨k, hk, hj, hget⟩
            · exact Or.inr ⟨0, Nat.succ_pos _, by omega, by simp [hv]⟩
            · exact Or.inr ⟨k + 1, by simpa using Nat.succ_lt_succ hk, by omega, by simpa using hget⟩
          · intro k hk
            cases k with
            | zero => simpa [toQ] using hle
            | succ k => exact hall k (by simpa using Nat.lt_of_succ_lt_succ hk)
          · intro k hk hjk
            cases k with
            | zero =>
                exfalso
                rcases hloc with ⟨hj, _⟩ | ⟨k', _, hj, _⟩ <;> omega
            | succ k =>
                exact hafter k (by simpa using Nat.lt_of_succ_lt_succ hk) (by omega)
        · -- bv = q : Ordering.eq, accumulator still replaced (last max wins)
          subst h
          obtain ⟨j, v, hrun, hloc, hle, hall, hafter⟩ :=
            ih i (i + 1) bv (Nat.lt_succ_self i) hnan'
          refine ⟨j, v, ?_, ?_, hle, ?_, ?_⟩
          · simpa [maxByGo, partialCmp, if_neg (lt_irrefl bv)] using hrun
          · rcases hloc with ⟨hj, hv⟩ | ⟨k, hk, hj, hget⟩
            · exact Or.inr ⟨0, Nat.succ_pos _, by omega, by simp [hv]⟩
            · exact Or.inr ⟨k + 1, by simpa using Nat.succ_lt_succ hk, by omega, by simpa using hget⟩
          · intro k hk
            cases k with
            | zero => simpa [toQ] using hle
            | succ k => exact hall k (by simpa using Nat.lt_of_succ_lt_succ hk)
          · intro k hk hjk
            cases k with
            | zero =>
                exfalso
                rcases hloc with ⟨hj, _⟩ | ⟨k', _, hj, _⟩ <;> omega
            | succ k =>
                exact hafter k (by simpa using Nat.lt_of_succ_lt_succ hk) (by omega)
        · -- q < bv : accumulator kept
          obtain ⟨j, v, hrun, hloc, hle, hall, hafter⟩ :=
            ih bi (i + 1) bv (Nat.lt_succ_of_lt hbi) hnan'
          refine ⟨j, v, ?_, ?_, hle, ?_, ?_⟩
          · have hnlt : ¬ bv < q := not_lt_of_gt h
            have hne : ¬ bv = q := ne_of_gt h
            simpa [maxByGo, partialCmp, if_neg hnlt, if_neg hne] using hrun
          · rcases hloc with ⟨hj, hv⟩ | ⟨k, hk, hj, hget⟩
            · exact Or.inl ⟨hj, hv⟩
            · exact Or.inr ⟨k + 1, by simpa using Nat.succ_lt_succ hk, by omega, by simpa using hget⟩
          · intro k hk
            cases k with
            | zero => simpa [toQ] using le_trans (le_of_lt h) hle
            | succ k => exact hall k (by simpa using Nat.lt_of_succ_lt_succ hk)
          · intro k hk hjk
            cases k with
            | zero => simpa [toQ] using lt_of_lt_of_le h hle
            | succ k =>
                exact hafter k (by simpa using Nat.lt_of_succ_lt_succ hk) (by omega)


/-- C1 (counterexample): on the tied row `[1, 1]` the code decodes
class 1, whereas an argmax with ties broken by the lowest class index
(the left-to-right scan with strict greater-than) selects class 0. -/
theorem argmax_tie_goes_to_last_counterexample :
    argmaxRust [F.val 1, F.val 1] = Except.ok 1 ∧
    firstArgmax [(1 : ℚ), 1] = some 0 ∧
    argmaxRust [F.val 1, F.val 1] ≠ Except.ok 0 := by
  refine ⟨rfl, by decide, ?_⟩
  intro h
  simp [argmaxRust, maxByGo, partialCmp] at h

/-- C1 (amended): for every nonempty, NaN-free logits row, the decoded
class is an argmax over classes with ties broken by the HIGHEST class
index (Rust's `max_by` keeps the last maximal element): the result `i`
is maximal and every later class is strictly smaller.  The shin/sin
2-class row is decoded by the same code path. -/
theorem argmax_decodes_last_tie (row : List F) (hne : row ≠ [])
    (hnan : ∀ x ∈ row, x ≠ F.nan) :
    ∃ i, argmaxRust row = Except.ok i ∧ i < row.length ∧
      (∀ k, k < row.length → toQ (row.getD k F.nan) ≤ toQ (row.getD i F.nan)) ∧
      (∀ k, k < row.length → i < k → toQ (row.getD k F.nan) < toQ (row.getD i F.nan)) := by
  cases row with
  | nil => exact absurd rfl hne
  | cons x xs =>
    cases x with
    | nan => exact absurd rfl (hnan F.nan (List.mem_cons_self _ _))
    | val bv =>
      obtain ⟨j, v, hrun, hloc, hble, hall, hafter⟩ :=
        maxByGo_spec xs 0 1 bv Nat.one_pos
          (fun y hy => hnan y (List.mem_cons_of_mem _ hy))
      have hjlt : j < (F.val bv :: xs).length := by
        rcases hloc with ⟨hj, _⟩ | ⟨k, hk, hj, _⟩ <;> simp <;> omega
      have hgetj : toQ ((F.val bv :: xs).getD j F.nan) = v := by
        rcases hloc with ⟨hj, hv⟩ | ⟨k, hk, hj, hget⟩
        · subst hj; subst hv; rfl
        · have hj' : j = k + 1 := by omega
          subst hj'
          rw [List.getD_cons_succ, hget]
          rfl
      refine ⟨j, hrun, hjlt, ?_, ?_⟩
      · intro k hk
        rw [hgetj]
        cases k with
        | zero => simpa [List.getD_cons_zero, toQ] using hble
        | succ k =>
            rw [List.getD_cons_succ]
            exact hall k (by simpa using hk)
      · intro k hk hjk
        rw [hgetj]
        cases k with
        | zero => omega
        | succ k =>
            rw [List.getD_cons_succ]
            exact hafter k (by simpa using hk) (by omega)

theorem argmax_decodes_last_tie_witness :
    ∃ i, argmaxRust [F.val 3, F.val 7] = Except.ok i ∧
      i < ([F.val 3, F.val 7] : List F).length ∧
      (∀ k, k < ([F.val 3, F.val 7] : List F).length →
        toQ (([F.val 3, F.val 7] : List F).getD k F.nan) ≤
          toQ (([F.val 3, F.val 7] : List F).getD i F.nan)) ∧
      (∀ k, k < ([F.val 3, F.val 7] : List F).length → i < k →
        toQ (([F.val 3, F.val 7] : List F).getD k F.nan) <
          toQ (([F.val 3, F.val 7] : List F).getD i F.nan)) :=
  argmax_decodes_last_tie [F.val 3, F.val 7] (by decide) (by decide)

/-- C2: a NaN in a logits row does not produce an `InferenceError`:
with at least two entries the `.unwrap()` of `partial_cmp` panics, and
a single-entry NaN row silently decodes class 0. -/
theorem argmax_nan_panics :
    argmaxRust [F.nan, F.val 1] = Except.error () ∧
    argmaxRust [F.val 1, F.nan] = Except.error () ∧
    argmaxRust [F.nan] = Except.ok 0 :=
  ⟨rfl, rfl, rfl⟩

/-- C7: `remove_nikud` removes exactly the characters of the block
U+0590–U+05C7 together with `'|'`: its output is a subsequence of the
input (no reordering), contains no such character, and retains every
occurrence of every other character. -/
theorem remove_nikud_exact (x : List Char) :
    (remove_nikud x).Sublist x ∧
    (∀ c ∈ remove_nikud x, isStripped c = false) ∧
    (∀ c : Char, isStripped c = false → (remove_nikud x).count c = x.count c) := by
  refine ⟨List.filter_sublist x, ?_, ?_⟩
  · intro c hc
    have := List.of_mem_filter hc
    simpa using this
  · intro c hc
    unfold remove_nikud
    rw [List.count_filter]
    simp [hc]

theorem remove_nikud_exact_witness :
    isStripped 'ֶ' = true ∧ isStripped 'a' = false ∧
    (remove_nikud ['a', 'ֶ', 'b']).Sublist ['a', 'ֶ', 'b'] ∧
    (remove_nikud ['a', 'ֶ', 'b']).count 'a' = (['a', 'ֶ', 'b'] : List Char).count 'a' :=
  ⟨by decide, by decide, (remove_nikud_exact ['a', 'ֶ', 'b']).1,
    (remove_nikud_exact ['a', 'ֶ', 'b']).2.2 'a' (by decide)⟩

/-- C8: `remove_nikud` is idempotent. -/
theorem remove_nikud_idem (x : List Char) :
    remove_nikud (remove_nikud x) = remove_nikud x := by
  unfold remove_nikud
  apply List.filter_eq_self.mpr
  intro a ha
  exact (List.mem_filter.mp ha).2

/-! ## Helper lemmas about slices and stripping -/

theorem sliceRust_ok {l : List Char} {a b : Nat} (hab : a ≤ b) (hb : b ≤ l.length) :
    sliceRust l a b = Except.ok (sliceL l a b) := by
  simp [sliceRust, sliceL, hab, hb]

theorem gap_ok {l : List Char} {prev s : Nat} (h1 : prev ≤ s) (h2 : s ≤ l.length) :
    (if prev < s then sliceRust l prev s else Except.ok []) =
      Except.ok (sliceL l prev s) := by
  by_cases h : prev < s
  · rw [if_pos h, sliceRust_ok (le_of_lt h) h2]
  · have heq : prev = s := le_antisymm h1 (le_of_not_lt h)
    subst heq
    simp [sliceL]

theorem drop_split {l : List Char} {a b : Nat} (h : a ≤ b) :
    l.drop a = sliceL l a b ++ l.drop b := by
  have h1 : (l.drop a).drop (b - a) = l.drop b := by
    rw [List.drop_drop]
    congr 1
    omega
  calc l.drop a = (l.drop a).take (b - a) ++ (l.drop a).drop (b - a) :=
        (List.take_append_drop _ _).symm
    _ = sliceL l a b ++ l.drop b := by rw [h1]; rfl

theorem sliceL_mem {l : List Char} {a b : Nat} {c : Char} (h : c ∈ sliceL l a b) :
    c ∈ l :=
  List.mem_of_mem_drop (List.mem_of_mem_take h)

theorem sliceL_length {l : List Char} {a b : Nat} (_hab : a ≤ b) (hb : b ≤ l.length) :
    (sliceL l a b).length = b - a := by
  simp [sliceL]
  omega

theorem drop_eq_getD_cons (l : List Char) : ∀ s, s < l.length →
    l.drop s = l.getD s 'a' :: l.drop (s + 1) := by
  induction l with
  | nil => intro s h; simp at h
  | cons a l ih =>
      intro s h
      cases s with
      | zero => simp
      | succ s =>
          simpa [List.getD_cons_succ, List.drop_succ_cons] using ih s (by simpa using h)

theorem getD_mem {l : List Char} {s : Nat} (h : s < l.length) : l.getD s 'a' ∈ l := by
  apply List.mem_of_mem_drop (n := s)
  rw [drop_eq_getD_cons l s h]
  exact List.mem_cons_self _ _

theorem sliceL_single {l : List Char} {s : Nat} (h : s < l.length) :
    sliceL l s (s + 1) = [l.getD s 'a'] := by
  unfold sliceL
  rw [drop_eq_getD_cons l s h]
  simp

theorem strip_keep {l : List Char} (h : ∀ c ∈ l, isStripped c = false) :
    remove_nikud l = l := by
  unfold remove_nikud
  apply List.filter_eq_self.mpr
  intro a ha
  simp [h a ha]

theorem strip_drop {l : List Char} (h : ∀ c ∈ l, isStripped c = true) :
    remove_nikud l = [] := by
  unfold remove_nikud
  apply List.filter_eq_nil_iff.mpr
  intro a ha
  simp [h a ha]

theorem strip_append (a b : List Char) :
    remove_nikud (a ++ b) = remove_nikud a ++ remove_nikud b := by
  unfold remove_nikud
  exact List.filter_append _ _

/-! ## Facts about the mark tables -/

theorem lookup_nikud : ∀ n, n < 29 →
    lookupTable NIKUD_CLASSES n = Except.ok (NIKUD_CLASSES.getD n []) := by decide

theorem lookup_shin : ∀ s, s < 2 →
    lookupTable SHIN_CLASSES s = Except.ok (SHIN_CLASSES.getD s []) := by decide

theorem nikud_entry_stripped : ∀ n, n < 29 →
    NIKUD_CLASSES.getD n [] ≠ MAT_LECT_TOKEN →
    ∀ c ∈ NIKUD_CLASSES.getD n [], isStripped c = true := by decide

theorem shin_entry_stripped : ∀ s, s < 2 →
    ∀ c ∈ SHIN_CLASSES.getD s [], isStripped c = true := by decide

theorem stress_stripped : ∀ c ∈ STRESS_CHAR, isStripped c = true := by decide

theorem vshva_stripped : ∀ c ∈ VOCAL_SHVA_CHAR, isStripped c = true := by decide

theorem pref_stripped : ∀ c ∈ PREF_CHAR, isStripped c = true := by decide

theorem strip_cons_keep {c : Char} {L : List Char} (hc : isStripped c = false)
    (hL : ∀ ch ∈ L, isStripped ch = true) : remove_nikud (c :: L) = [c] := by
  have h2 : remove_nikud L = [] := strip_drop hL
  unfold remove_nikud at h2 ⊢
  simp [List.filter_cons, hc, h2]

theorem shinEmission_ok (p : Preds) (c : Char) (idx : Nat)
    (hs : ∀ s ∈ p.shin, s < 2) :
    ∃ sh, shinEmission p c idx = Except.ok sh ∧ ∀ ch ∈ sh, isStripped ch = true := by
  unfold shinEmission
  by_cases hc : c = 'ש'
  · rw [if_pos hc]
    cases hget : p.shin.get? idx with
    | none => exact ⟨[], rfl, by simp⟩
    | some sp =>
        have hsp : sp < 2 := hs sp (List.get?_mem hget)
        exact ⟨_, by simpa using lookup_shin sp hsp, shin_entry_stripped sp hsp⟩
  · rw [if_neg hc]
    exact ⟨[], rfl, by simp⟩

theorem nikudEmission_ok (mark : Option (List Char)) (c : Char) (n : Nat)
    (hn : n < 29) (hm : markOK mark = true) :
    ∃ nk, nikudEmission mark c n = Except.ok nk ∧ ∀ ch ∈ nk, isStripped ch = true := by
  unfold nikudEmission
  rw [lookup_nikud n hn]
  by_cases hmat : NIKUD_CLASSES.getD n [] = MAT_LECT_TOKEN
  · simp only [hmat, if_pos rfl]
    by_cases hmc : is_matres_letter c = true
    · simp only [hmc, if_true]
      cases mark with
      | none => exact ⟨[], rfl, by simp⟩
      | some m =>
          refine ⟨m, rfl, ?_⟩
          intro ch hch
          exact List.all_eq_true.mp (by simpa [markOK] using hm) ch hch
    · simp only [Bool.not_eq_true] at hmc
      simp only [hmc, if_false]
      exact ⟨[], rfl, by simp⟩
  · simp only [if_neg hmat]
    exact ⟨_, rfl, nikud_entry_stripped n hn hmat⟩

theorem all_stripped_append {a b : List Char}
    (ha : ∀ c ∈ a, isStripped c = true) (hb : ∀ c ∈ b, isStripped c = true) :
    ∀ c ∈ a ++ b, isStripped c = true := by
  intro c hc
  rcases List.mem_append.mp hc with h | h
  · exact ha c h
  · exact hb c h

theorem all_stripped_ite (b : Bool) {L : List Char}
    (hL : ∀ c ∈ L, isStripped c = true) :
    ∀ c ∈ (if b then L else ([] : List Char)), isStripped c = true := by
  cases b
  · simp
  · simpa using hL

theorem emitLetter_ok_strip (mark : Option (List Char)) (p : Preds) (c : Char)
    (idx : Nat) (hm : markOK mark = true)
    (hn : ∀ n ∈ p.nikud, n < 29) (hs : ∀ s ∈ p.shin, s < 2)
    (hc : isStripped c = false) :
    ∃ em, emitLetter mark p c idx = Except.ok em ∧ remove_nikud em = [c] := by
  unfold emitLetter
  by_cases hheb : is_hebrew_letter c = true
  · obtain ⟨sh, hsh, hshst⟩ := shinEmission_ok p c idx hs
    have hnk : ∃ nk, (match p.nikud.get? idx with
        | some n => nikudEmission mark c n
        | none => Except.ok ([] : List Char)) = Except.ok nk ∧
        ∀ ch ∈ nk, isStripped ch = true := by
      cases hget : p.nikud.get? idx with
      | none => exact ⟨[], rfl, by simp⟩
      | some n =>
          obtain ⟨nk, h1, h2⟩ := nikudEmission_ok mark c n (hn n (List.get?_mem hget)) hm
          exact ⟨nk, by simpa using h1, h2⟩
    obtain ⟨nk, hnkeq, hnkst⟩ := hnk
    simp only [hheb, if_true, hsh, hnkeq]
    refine ⟨_, rfl, ?_⟩
    apply strip_cons_keep hc
    exact all_stripped_append
      (all_stripped_append
        (all_stripped_append
          (all_stripped_append hshst hnkst)
          (all_stripped_ite _ stress_stripped))
        (all_stripped_ite _ vshva_stripped))
      (all_stripped_ite _ pref_stripped)
  · simp only [Bool.not_eq_true] at hheb
    simp only [hheb, if_false]
    exact ⟨[c], rfl, strip_keep (by intro ch hch; simp at hch; subst hch; exact hc)⟩

theorem reconGo_ok_strip (clean : List Char) (mark : Option (List Char)) (p : Preds)
    (hclean : ∀ c ∈ clean, isStripped c = false)
    (hm : markOK mark = true)
    (hn : ∀ n ∈ p.nikud, n < 29) (hs : ∀ s ∈ p.shin, s < 2) :
    ∀ spans : List (Nat × Nat), ∀ idx prev : Nat,
      spansWF clean.length prev spans = true → prev ≤ clean.length →
      ∃ out, reconGo clean mark p spans idx prev = Except.ok out ∧
        remove_nikud out = clean.drop prev := by
  intro spans
  induction spans with
  | nil =>
      intro idx prev _ _
      refine ⟨clean.drop prev, rfl, strip_keep ?_⟩
      intro c hc
      exact hclean c (List.mem_of_mem_drop hc)
  | cons sp rest ih =>
      obtain ⟨s, e⟩ := sp
      intro idx prev hwf hprev
      by_cases hes : e ≤ s
      · -- empty span: cursor unchanged, nothing emitted for the token
        have hwf' : s ≤ prev ∧ spansWF clean.length prev rest = true := by
          simpa [spansWF, hes] using hwf
        have hnotlt : ¬ prev < s := by omega
        obtain ⟨tl, htl, hstl⟩ := ih (idx + 1) prev hwf'.2 hprev
        refine ⟨tl, ?_, hstl⟩
        simp only [reconGo, if_neg hnotlt, if_pos hes, htl, List.nil_append]
      · have hlt : s < e := by omega
        have hwf' : (prev ≤ s ∧ e ≤ clean.length) ∧
            spansWF clean.length e rest = true := by
          simpa [spansWF, hes] using hwf
        obtain ⟨⟨hps, hel⟩, hrest⟩ := hwf'
        have hse : s ≤ e := le_of_lt hlt
        have hgap := gap_ok (l := clean) hps (le_trans hse hel)
        have htok := sliceRust_ok (l := clean) hse hel
        have htoklen : (sliceL clean s e).length = e - s := sliceL_length hse hel
        obtain ⟨tl, htl, hstl⟩ := ih (idx + 1) e hrest hel
        by_cases hone : e - s = 1
        · -- single-character token
          have hslen : s < clean.length := by omega
          have he1 : e = s + 1 := by omega
          have hsingle : sliceL clean s e = [clean.getD s 'a'] := by
            rw [he1]
            exact sliceL_single hslen
          obtain ⟨em, hem, hsem⟩ :=
            emitLetter_ok_strip mark p (clean.getD s 'a') idx hm hn hs
              (hclean _ (getD_mem hslen))
          refine ⟨sliceL clean prev s ++ em ++ tl, ?_, ?_⟩
          · simp only [reconGo, hgap, htok, hsingle, List.length_singleton,
              ne_eq, not_true_eq_false, if_neg hes, if_false, List.headD_cons,
              hem, htl]
          · rw [strip_append, strip_append, hsem, hstl,
              strip_keep (fun c hc => hclean c (sliceL_mem hc))]
            have h1 : clean.drop prev = sliceL clean prev s ++ clean.drop s :=
              drop_split hps
            have h2 : clean.drop s = clean.getD s 'a' :: clean.drop (s + 1) :=
              drop_eq_getD_cons clean s hslen
            rw [h1, h2, he1]
            simp
        · -- multi-character token: verbatim copy
          refine ⟨sliceL clean prev s ++ sliceL clean s e ++ tl, ?_, ?_⟩
          · have hne1 : (sliceL clean s e).length ≠ 1 := by omega
            simp only [reconGo, hgap, htok, ne_eq, hne1, not_false_eq_true,
              if_neg hes, if_true, htl]
          · rw [strip_append, strip_append, hstl,
              strip_keep (fun c hc => hclean c (sliceL_mem hc)),
              strip_keep (fun c hc => hclean c (sliceL_mem hc))]
            have h1 : clean.drop prev = sliceL clean prev s ++ clean.drop s :=
              drop_split hps
            have h2 : clean.drop s = sliceL clean s e ++ clean.drop e :=
              drop_split hse
            rw [h1, h2, List.append_assoc]

/-- C3 (counterexample): over the already-clean text `"abc"` and the
ascending, non-overlapping span list `[(0,1), (2,2)]` (the empty span
`(2,2)` sits past the cursor), reconstruction emits `"abbc"`: the gap
`"b"` is copied when the empty span is met but the cursor is not
advanced, so it is copied again afterwards; stripping does not undo the
duplication. -/
theorem recon_roundtrip_counterexample :
    remove_nikud ['a', 'b', 'c'] = ['a', 'b', 'c'] ∧
    recon ['a', 'b', 'c'] [(0, 1), (2, 2)] none ⟨[], [], [], [], []⟩ =
      Except.ok ['a', 'b', 'b', 'c'] ∧
    remove_nikud ['a', 'b', 'b', 'c'] ≠ ['a', 'b', 'c'] :=
  ⟨by decide, by decide, by decide⟩

/-- C3 (amended): for every cleaned input (a fixpoint of
`remove_nikud`), every ascending, non-overlapping, in-bounds span list
in which each empty span starts at or before the current cursor, every
in-range decoded predictions and every matres mark made of stripped
characters, reconstruction succeeds and stripping its output
reproduces the cleaned input exactly. -/
theorem recon_strip_roundtrip (clean : List Char) (spans : List (Nat × Nat))
    (mark : Option (List Char)) (p : Preds)
    (hclean : remove_nikud clean = clean)
    (hwf : spansWF clean.length 0 spans = true)
    (hn : ∀ n ∈ p.nikud, n < 29) (hs : ∀ s ∈ p.shin, s < 2)
    (hm : markOK mark = true) :
    ∃ out, recon clean spans mark p = Except.ok out ∧ remove_nikud out = clean := by
  have hclean0 : List.filter (fun c => !isStripped c) clean = clean := hclean
  have hclean' : ∀ c ∈ clean, isStripped c = false := by
    intro c hc
    have := List.filter_eq_self.mp hclean0 c hc
    simpa using this
  obtain ⟨out, h1, h2⟩ :=
    reconGo_ok_strip clean mark p hclean' hm hn hs spans 0 0 hwf (Nat.zero_le _)
  exact ⟨out, h1, by simpa using h2⟩

theorem recon_strip_roundtrip_witness :
    remove_nikud ['ש', ' ', 'ב'] = ['ש', ' ', 'ב'] ∧
    spansWF 3 0 [(0, 0), (0, 1), (2, 3)] = true ∧
    ∃ out, recon ['ש', ' ', 'ב'] [(0, 0), (0, 1), (2, 3)] (some ['ֹ'])
        ⟨[10, 2], [1, 0], [true], [false, true], [true]⟩ = Except.ok out ∧
      remove_nikud out = ['ש', ' ', 'ב'] :=
  ⟨by decide, by decide,
    recon_strip_roundtrip ['ש', ' ', 'ב'] [(0, 0), (0, 1), (2, 3)] (some ['ֹ'])
      ⟨[10, 2], [1, 0], [true], [false, true], [true]⟩
      (by decide) (by decide) (by decide) (by decide) (by decide)⟩

theorem nikudEmission_eq (mark : Option (List Char)) (c : Char) (n : Nat)
    (hn : n < 29) :
    nikudEmission mark c n =
      (if NIKUD_CLASSES.getD n [] = MAT_LECT_TOKEN then
        (if is_matres_letter c then Except.ok (mark.getD []) else Except.ok [])
      else Except.ok (NIKUD_CLASSES.getD n [])) := by
  unfold nikudEmission
  rw [lookup_nikud n hn]

/-- C4: matres-lectionis gating.  When the decoded class is the
placeholder (its table entry is `MAT_LECT_TOKEN`): on a non-matres
letter nothing is appended for the nikud under any policy; on a matres
letter with a supplied mark exactly that mark is appended; with no mark
nothing is appended. -/
theorem matres_gating (c : Char) (n : Nat)
    (hmat : NIKUD_CLASSES.getD n [] = MAT_LECT_TOKEN) (hn : n < 29) :
    (is_matres_letter c = false →
      ∀ mark : Option (List Char), nikudEmission mark c n = Except.ok []) ∧
    (is_matres_letter c = true →
      ∀ m : List Char, nikudEmission (some m) c n = Except.ok m) ∧
    (is_matres_letter c = true → nikudEmission none c n = Except.ok []) := by
  refine ⟨?_, ?_, ?_⟩
  · intro h mark
    rw [nikudEmission_eq mark c n hn, if_pos hmat, if_neg (by simp [h])]
  · intro h m
    rw [nikudEmission_eq (some m) c n hn, if_pos hmat, if_pos h]
    rfl
  · intro h
    rw [nikudEmission_eq none c n hn, if_pos hmat, if_pos h]
    rfl

theorem matres_gating_witness :
    NIKUD_CLASSES.getD 1 [] = MAT_LECT_TOKEN ∧
    is_matres_letter 'ב' = false ∧ is_matres_letter 'ו' = true ∧
    nikudEmission (some ['ֹ']) 'ב' 1 = Except.ok [] ∧
    nikudEmission (some ['ֹ']) 'ו' 1 = Except.ok ['ֹ'] ∧
    nikudEmission none 'ו' 1 = Except.ok [] :=
  ⟨by decide, by decide, by decide,
    (matres_gating 'ב' 1 (by decide) (by decide)).1 (by decide) (some ['ֹ']),
    (matres_gating 'ו' 1 (by decide) (by decide)).2.1 (by decide) ['ֹ'],
    (matres_gating 'ו' 1 (by decide) (by decide)).2.2 (by decide)⟩

theorem nikudEmission_ok_any (mark : Option (List Char)) (c : Char) (n : Nat)
    (hn : n < 29) : ∃ nk, nikudEmission mark c n = Except.ok nk := by
  rw [nikudEmission_eq mark c n hn]
  by_cases h1 : NIKUD_CLASSES.getD n [] = MAT_LECT_TOKEN
  · rw [if_pos h1]
    by_cases h2 : is_matres_letter c = true
    · rw [if_pos h2]; exact ⟨_, rfl⟩
    · rw [if_neg h2]; exact ⟨_, rfl⟩
  · rw [if_neg h1]; exact ⟨_, rfl⟩

/-- C5: for a single Hebrew-letter token the emitted sequence is, in
this exact order: base letter, shin/sin dot (only when the letter is
ש), the nikud mark string, the stress mark, the vocal-shva mark, the
prefix marker. -/
theorem emission_order (c : Char) (n sh : Nat) (b1 b2 b3 : Bool)
    (mark : Option (List Char))
    (hc : is_hebrew_letter c = true) (hn : n < 29) (hsh : sh < 2) :
    ∃ nk, nikudEmission mark c n = Except.ok nk ∧
      recon [c] [(0, 1)] mark ⟨[n], [sh], [b1], [b2], [b3]⟩ =
        Except.ok (c :: ((if c = 'ש' then SHIN_CLASSES.getD sh [] else []) ++ nk ++
          (if b1 then STRESS_CHAR else []) ++ (if b2 then VOCAL_SHVA_CHAR else []) ++
          (if b3 then PREF_CHAR else []))) := by
  obtain ⟨nk, hnk⟩ := nikudEmission_ok_any mark c n hn
  have hshin : shinEmission ⟨[n], [sh], [b1], [b2], [b3]⟩ c 0 =
      Except.ok (if c = 'ש' then SHIN_CLASSES.getD sh [] else []) := by
    unfold shinEmission
    by_cases hcs : c = 'ש'
    · simp only [hcs, if_pos rfl]
      simpa using lookup_shin sh hsh
    · simp [hcs]
  refine ⟨nk, hnk, ?_⟩
  unfold recon reconGo emitLetter
  simp [sliceRust, hc, hshin, hnk, reconGo]

theorem emission_order_witness :
    is_hebrew_letter 'ש' = true ∧
    ∃ nk, nikudEmission none 'ש' 10 = Except.ok nk ∧
      recon ['ש'] [(0, 1)] none ⟨[10], [0], [true], [true], [true]⟩ =
        Except.ok ('ש' :: ((if 'ש' = 'ש' then SHIN_CLASSES.getD 0 [] else []) ++ nk ++
          (if true then STRESS_CHAR else []) ++ (if true then VOCAL_SHVA_CHAR else []) ++
          (if true then PREF_CHAR else []))) :=
  ⟨by decide, emission_order 'ש' 10 0 true true true none (by decide) (by decide) (by decide)⟩

/-- C6: an empty span (starting at or before the cursor, as tokenizer
special tokens do) contributes nothing and leaves the cursor unchanged;
a span covering more than one character is copied into the output
verbatim — gap, raw slice, then the rest from cursor `e` — with no mark
attached regardless of the predictions at that position. -/
theorem span_passthrough (clean : List Char) (mark : Option (List Char)) (p : Preds)
    (rest : List (Nat × Nat)) (idx prev s e : Nat) :
    (e ≤ s → s ≤ prev →
      reconGo clean mark p ((s, e) :: rest) idx prev =
        reconGo clean mark p rest (idx + 1) prev) ∧
    (1 < e - s → prev ≤ s → e ≤ clean.length →
      reconGo clean mark p ((s, e) :: rest) idx prev =
        match reconGo clean mark p rest (idx + 1) e with
        | Except.error u => Except.error u
        | Except.ok tl =>
            Except.ok (sliceL clean prev s ++ sliceL clean s e ++ tl)) := by
  constructor
  · intro hes hsp
    have hnotlt : ¬ prev < s := by omega
    cases hrec : reconGo clean mark p rest (idx + 1) prev with
    | error u => simp only [reconGo, if_neg hnotlt, if_pos hes, hrec]
    | ok tl => simp only [reconGo, if_neg hnotlt, if_pos hes, hrec, List.nil_append]
  · intro h2 hps hel
    have hes : ¬ e ≤ s := by omega
    have hse : s ≤ e := by omega
    have hgap := gap_ok (l := clean) hps (le_trans hse hel)
    have htok := sliceRust_ok (l := clean) hse hel
    have hne1 : (sliceL clean s e).length ≠ 1 := by
      rw [sliceL_length hse hel]
      omega
    cases hrec : reconGo clean mark p rest (idx + 1) e with
    | error u =>
        simp only [reconGo, hgap, htok, ne_eq, hne1, not_false_eq_true,
          if_neg hes, if_true, hrec]
    | ok tl =>
        simp only [reconGo, hgap, htok, ne_eq, hne1, not_false_eq_true,
          if_neg hes, if_true, hrec]

theorem span_passthrough_witness :
    (reconGo ['a', 'b', 'c'] none ⟨[9], [1], [true], [true], [true]⟩ [(0, 0)] 0 0 =
      reconGo ['a', 'b', 'c'] none ⟨[9], [1], [true], [true], [true]⟩ [] 1 0) ∧
    (reconGo ['a', 'b', 'c'] none ⟨[9], [1], [true], [true], [true]⟩ [(0, 3)] 0 0 =
      match reconGo ['a', 'b', 'c'] none ⟨[9], [1], [true], [true], [true]⟩ [] 1 3 with
      | Except.error u => Except.error u
      | Except.ok tl =>
          Except.ok (sliceL ['a', 'b', 'c'] 0 0 ++ sliceL ['a', 'b', 'c'] 0 3 ++ tl)) :=
  ⟨(span_passthrough ['a', 'b', 'c'] none ⟨[9], [1], [true], [true], [true]⟩
      [] 0 0 0 0).1 (by decide) (by decide),
    (span_passthrough ['a', 'b', 'c'] none ⟨[9], [1], [true], [true], [true]⟩
      [] 0 0 0 3).2 (by decide) (by decide) (by decide)⟩

/-- C9: an out-of-range decoded class index does not produce an
`InferenceError`: the table indexing `NIKUD_CLASSES[..]`/`SHIN_CLASSES[..]`
panics.  Class 29 is out of range for the 29-entry `NIKUD_CLASSES`
(valid indices 0–28) and class 2 for the 2-entry `SHIN_CLASSES`. -/
theorem out_of_range_class_panics :
    recon ['א'] [(0, 1)] none ⟨[29], [], [], [], []⟩ = Except.error () ∧
    recon ['ש'] [(0, 1)] none ⟨[0], [2], [], [], []⟩ = Except.error () :=
  ⟨by decide, by decide⟩

theorem getElem?_len_le {α : Type} (l : List α) (n : Nat) (h : l.length ≤ n) :
    l[n]? = none := List.getElem?_eq_none h

theorem getElemD_len_le (l : List Bool) (n : Nat) (h : l.length ≤ n) :
    l[n]?.getD false = false := by
  rw [getElem?_len_le l n h]
  rfl

/-- C10: for a Hebrew-letter token whose position is at or beyond the
length of the prediction vectors, each missing mark is silently
skipped: with all vectors short the bare letter is emitted; a present
prediction (here: stress) still emits its own mark; and full
reconstruction succeeds with the bare letter. -/
theorem short_preds_skip (mark : Option (List Char)) (p : Preds) (c : Char)
    (idx : Nat) (hc : is_hebrew_letter c = true)
    (h1 : p.nikud.length ≤ idx) (h2 : p.shin.length ≤ idx)
    (h4 : p.vshva.length ≤ idx) (h5 : p.pref.length ≤ idx) :
    (p.stress.length ≤ idx → emitLetter mark p c idx = Except.ok [c]) ∧
    (p.stress.getD idx false = true →
      emitLetter mark p c idx = Except.ok (c :: STRESS_CHAR)) ∧
    recon [c] [(0, 1)] mark ⟨[], [], [], [], []⟩ = Except.ok [c] := by
  have hshinz : shinEmission p c idx = Except.ok [] := by
    unfold shinEmission
    by_cases hcs : c = 'ש'
    · simp [hcs, getElem?_len_le _ _ h2]
    · simp [hcs]
  have hnikz : p.nikud[idx]? = none := getElem?_len_le _ _ h1
  have hvs : p.vshva[idx]?.getD false = false := getElemD_len_le _ _ h4
  have hpf : p.pref[idx]?.getD false = false := getElemD_len_le _ _ h5
  refine ⟨?_, ?_, ?_⟩
  · intro h3
    have hst : p.stress[idx]?.getD false = false := getElemD_len_le _ _ h3
    unfold emitLetter
    simp [hc, hshinz, hnikz, hst, hvs, hpf]
  · intro hst
    have hst' : p.stress[idx]?.getD false = true := by
      rw [← List.getD_eq_getElem?_getD]
      exact hst
    unfold emitLetter
    simp [hc, hshinz, hnikz, hst', hvs, hpf]
  · have hE : emitLetter mark ⟨[], [], [], [], []⟩ c 0 = Except.ok [c] := by
      unfold emitLetter shinEmission
      simp [hc]
    unfold recon reconGo
    simp [sliceRust, hE, reconGo]

theorem short_preds_skip_witness :
    is_hebrew_letter 'ב' = true ∧
    emitLetter none ⟨[], [], [true], [], []⟩ 'ב' 0 = Except.ok ('ב' :: STRESS_CHAR) ∧
    recon ['ב'] [(0, 1)] none ⟨[], [], [], [], []⟩ = Except.ok ['ב'] :=
  ⟨by decide,
    (short_preds_skip none ⟨[], [], [true], [], []⟩ 'ב' 0 (by decide) (by decide)
      (by decide) (by decide) (by decide)).2.1 (by decide),
    (short_preds_skip none ⟨[], [], [], [], []⟩ 'ב' 0 (by decide) (by decide)
      (by decide) (by decide) (by decide)).2.2⟩
